import Mathlib

/-!
Verification of the holiday recurrence compiler (`generate.py`).

The development shallowly embeds the compiler's core: the pattern
compression `find_yearly_patterns`, the persistent identifier manager
`get_or_create_persistent_uid`, the offset parser `parse_iso_duration`,
the event emitter `create_pattern_event`, and the relevant parts of
`main` (region processing, per-region calendar commits, identifier keys).
Python integers are `Nat`/`Int`; Python dates are proleptic-Gregorian
ordinals (`date.toordinal` semantics); fallible code is `Except`.
-/

namespace Generate

/-- A compressed run, as the dicts produced by `find_yearly_patterns`:
`{'start': …, 'interval': …, 'count': …}`. -/
structure Pattern where
  start : Nat
  interval : Nat
  count : Nat
deriving DecidableEq

/-- The inner `while (current_val + diff) in years` loop of
`find_yearly_patterns`: greedily extend from `cur` by steps of `diff`
while the next value is a member of `years`.  The loop is embedded with
fuel; `extendRun_fuel_sufficient` below shows that the fuel
`years.length` it is always called with never cuts the loop short. -/
def extendRun (years : List Nat) (diff : Nat) : Nat → Nat → List Nat
  | _, 0 => []
  | cur, fuel + 1 =>
    if (cur + diff) ∈ years then (cur + diff) :: extendRun years diff (cur + diff) fuel
    else []

/-- The candidate sequence built for a given later year `t`
(`current_sequence = [start_year, next_year]` followed by the look-ahead
loop). -/
def candidate (years : List Nat) (s t : Nat) : List Nat :=
  s :: t :: extendRun years (t - s) t years.length

/-- One step of the `for i in range(1, len(years))` search: keep the
candidate if it is strictly longer than the best sequence so far. -/
def bstep (years : List Nat) (s : Nat) (best : List Nat) (t : Nat) : List Nat :=
  if best.length < (candidate years s t).length then candidate years s t else best

/-- The whole candidate search of one iteration of the outer loop:
`best_sequence = [start_year]`, then fold `bstep` over the later years. -/
def bestSeq (years : List Nat) (s : Nat) (cands : List Nat) : List Nat :=
  cands.foldl (bstep years s) [s]

/-- `for y in best_sequence: years.remove(y)`. -/
def removeSeq (years seq : List Nat) : List Nat :=
  seq.foldl (fun acc y => acc.erase y) years

/-- One iteration of the `while years:` loop of `find_yearly_patterns`:
the emitted pattern and the remaining pool.  (The `[]` case is
unreachable: the loop body runs only on a non-empty pool.) -/
def stepIter (years : List Nat) : Pattern × List Nat :=
  match years with
  | [] => (⟨0, 0, 0⟩, [])
  | [s] => (⟨s, 0, 1⟩, [])
  | s :: t0 :: rest =>
    if 1 < (bestSeq (s :: t0 :: rest) s (t0 :: rest)).length then
      (⟨s, (bestSeq (s :: t0 :: rest) s (t0 :: rest)).getD 1 0 -
            (bestSeq (s :: t0 :: rest) s (t0 :: rest)).getD 0 0,
         (bestSeq (s :: t0 :: rest) s (t0 :: rest)).length⟩,
       removeSeq (s :: t0 :: rest) (bestSeq (s :: t0 :: rest) s (t0 :: rest)))
    else
      (⟨s, 0, 1⟩, t0 :: rest)

/-- The `while years:` loop, with fuel.  `find_yearly_patterns` runs it
with fuel `years.length`, which suffices because every iteration removes
at least one year from the pool (`stepIter_length_lt`). -/
def findLoop : Nat → List Nat → List Pattern
  | 0, _ => []
  | _ + 1, [] => []
  | fuel + 1, y :: ys =>
    (stepIter (y :: ys)).1 :: findLoop fuel (stepIter (y :: ys)).2

/-- `find_yearly_patterns(years)`: dedup and sort the input
(`sorted(list(set(years)))`), then run the compression loop. -/
def find_yearly_patterns (years : List Nat) : List Pattern :=
  let ys := years.dedup.insertionSort (· ≤ ·)
  findLoop ys.length ys

/-- The set of years a compressed run denotes:
`start, start+interval, …, start+(count-1)*interval`. -/
def expandPat (p : Pattern) : List Nat :=
  (List.range p.count).map (fun i => p.start + i * p.interval)

/-! ### Dates as proleptic-Gregorian ordinals (`datetime.date` semantics) -/

def START_YEAR : Nat := 1999

def END_YEAR : Nat := 2099

def isLeapYear (y : Nat) : Bool :=
  y % 4 == 0 && (y % 100 != 0 || y % 400 == 0)

def daysInMonth (y m : Nat) : Nat :=
  match m with
  | 1 => 31
  | 2 => if isLeapYear y then 29 else 28
  | 3 => 31
  | 4 => 30
  | 5 => 31
  | 6 => 30
  | 7 => 31
  | 8 => 31
  | 9 => 30
  | 10 => 31
  | 11 => 30
  | 12 => 31
  | _ => 0

def daysBeforeMonth (y : Nat) : Nat → Nat
  | 0 => 0
  | 1 => 0
  | m + 1 => daysBeforeMonth y m + daysInMonth y m

/-- `datetime.date(y, m, d).toordinal()`: days since 0001-01-01 = day 1.
A `datetime.timedelta(days = k)` added to a date is `+ k` on ordinals. -/
def toOrdinal (y m d : Nat) : Nat :=
  365 * (y - 1) + (y - 1) / 4 - (y - 1) / 100 + (y - 1) / 400 + daysBeforeMonth y m + d

def findMonth (y : Nat) : Nat → Nat → Nat → Nat × Nat
  | 0, m, rem => (m, rem + 1)
  | fuel + 1, m, rem =>
    if rem < daysInMonth y m then (m, rem + 1)
    else findMonth y fuel (m + 1) (rem - daysInMonth y m)

/-- `datetime.date.fromordinal(n)` as `(year, month, day)`. -/
def fromOrdinal (n : Nat) : Nat × Nat × Nat :=
  let n0 := n - 1
  let n400 := n0 / 146097
  let r1 := n0 % 146097
  let n100 := r1 / 36524
  let r2 := r1 % 36524
  let n4 := r2 / 1461
  let r3 := r2 % 1461
  let n1 := r3 / 365
  let r4 := r3 % 365
  let year := n400 * 400 + n100 * 100 + n4 * 4 + n1 + 1
  if n1 == 4 || n100 == 4 then (year - 1, 12, 31)
  else
    let md := findMonth year 11 1 r4
    (year, md.1, md.2)

/-- Modelled from the spec: the compiler's Easter function is
`dateutil.easter.easter` (library code, not part of this repository);
per the spec it is the standard Western/Gregorian computus, a pure
function from the year to the date of Easter Sunday.  This is the
standard Gregorian (Anonymous/Butcher) computus, returning
`(year, month, day)` like `datetime.date(y, month, day)`. -/
def easter (y : Nat) : Nat × Nat × Nat :=
  let a := y % 19
  let b := y / 100
  let c := y % 100
  let d := b / 4
  let e := b % 4
  let f := (b + 8) / 25
  let g := (b - f + 1) / 3
  let h := (19 * a + b - d - g + 15) % 30
  let i := c / 4
  let k := c % 4
  let l := (32 + 2 * e + 2 * i - h - k) % 7
  let m := (a + 11 * h + 22 * l) / 451
  let month := (h + l + 114 - 7 * m) / 31
  let day := (h + l + 114 - 7 * m) % 31 + 1
  (y, month, day)

/-- `easter(year).toordinal()`. -/
def easterOrdinal (y : Nat) : Nat :=
  toOrdinal y (easter y).2.1 (easter y).2.2

/-! ### Offset parsing (`parse_iso_duration`) -/

def digitsToNat (cs : List Char) : Option Nat :=
  match cs with
  | [] => none
  | _ =>
    if cs.all Char.isDigit then
      some (cs.foldl (fun acc c => 10 * acc + (c.toNat - 48)) 0)
    else none

/-- Python `int(str)`, restricted to the shapes the compiler's inputs
use: optional surrounding spaces, an optional sign, then decimal ASCII
digits; everything else raises `ValueError` (the error string). -/
def int_of_string (s : String) : Except String Int :=
  match (s.data.dropWhile (· == ' ')).reverse.dropWhile (· == ' ') |>.reverse with
  | '-' :: cs =>
    match digitsToNat cs with
    | some n => .ok (-(n : Int))
    | none => .error "invalid literal for int() with base 10"
  | '+' :: cs =>
    match digitsToNat cs with
    | some n => .ok ((n : Int))
    | none => .error "invalid literal for int() with base 10"
  | cs =>
    match digitsToNat cs with
    | some n => .ok ((n : Int))
    | none => .error "invalid literal for int() with base 10"

/-- `parse_iso_duration(duration_str)`: `duration_str.replace("P", "")`
removes every `P`, `.replace("D", "")` every `D`, then `int(...)`; the
result is the day count of the returned `timedelta`. -/
def parse_iso_duration (duration_str : String) : Except String Int :=
  int_of_string ⟨(duration_str.data.filter (· != 'P')).filter (· != 'D')⟩

/-! ### Persistent identifiers (`get_or_create_persistent_uid`) -/

/-- Modelled from the spec: `uuid.uuid4()` (library code, not part of
this repository) draws 128 random bits `r` and forces UUID-v4 shape:
version nibble (bits 76–79) set to 4, variant bits (62–63) set to 2. -/
def uuid4 (r : Nat) : Nat :=
  let x := r % 2 ^ 128
  let x2 := x / 2 ^ 80 * 2 ^ 80 + 4 * 2 ^ 76 + x % 2 ^ 76
  x2 / 2 ^ 64 * 2 ^ 64 + 2 * 2 ^ 62 + x2 % 2 ^ 62

def uuidVersion (u : Nat) : Nat := u / 2 ^ 76 % 16

def uuidVariant (u : Nat) : Nat := u / 2 ^ 62 % 4

def hexChar (n : Nat) : Char :=
  if n < 10 then Char.ofNat (48 + n) else Char.ofNat (87 + n)

def hexDigits : Nat → Nat → List Char
  | 0, _ => []
  | w + 1, n => hexDigits w (n / 16) ++ [hexChar (n % 16)]

/-- `str(uuid.UUID(int = u))`: lowercase hex in 8-4-4-4-12 groups. -/
def uuidToString (u : Nat) : String :=
  ⟨hexDigits 8 (u / 2 ^ 96) ++ '-' ::
    (hexDigits 4 (u / 2 ^ 80 % 2 ^ 16) ++ '-' ::
      (hexDigits 4 (u / 2 ^ 64 % 2 ^ 16) ++ '-' ::
        (hexDigits 4 (u / 2 ^ 48 % 2 ^ 16) ++ '-' :: hexDigits 12 (u % 2 ^ 48))))⟩

/-- One holiday's `details` dict: the `persistent_uids` sub-dict (absent
until first created) and its other entries (`date`, `diff`, …), which
are round-tripped untouched. -/
structure Details where
  persistent_uids : Option (List (String × String))
  rest : List (String × String)
deriving DecidableEq

def lookupUid : List (String × String) → String → Option String
  | [], _ => none
  | (k, v) :: tl, key => if k = key then some v else lookupUid tl key

/-- `get_or_create_persistent_uid(details_dict, key_name)`: ensure the
`persistent_uids` sub-dict exists, mint `str(uuid.uuid4())` under
`key_name` when absent (Python dict insertion appends), and return the
stored value.  The ambient randomness of `uuid.uuid4()` is the injected
entropy `r`. -/
def get_or_create_persistent_uid (details : Details) (key_name : String) (r : Nat) :
    String × Details :=
  match lookupUid (details.persistent_uids.getD []) key_name with
  | some v => (v, { details with persistent_uids := some (details.persistent_uids.getD []) })
  | none =>
    (uuidToString (uuid4 r),
      { details with
          persistent_uids := some (details.persistent_uids.getD [] ++ [(key_name, uuidToString (uuid4 r))]) })

/-! ### Events (`create_pattern_event` and the fixed-holiday events) -/

/-- A recurrence rule: the fixed holidays' yearly-until rule or the
compressed yearly-with-interval-and-count rule. -/
inductive RRule where
  | yearlyUntil (untilOrd : Nat)
  | yearlyIntervalCount (interval count : Nat)
deriving DecidableEq

/-- An `icalendar` event as the compiler fills it.  Dates are ordinals;
the wall-clock `dtstamp` field is omitted (no property depends on it). -/
structure CalEvent where
  summary : String
  dtstart : Nat
  dtend : Nat
  uid : String
  rrule : Option RRule
deriving DecidableEq

/-- `create_pattern_event(title, start_date, uid, interval, count)`:
one-day event; the `FREQ=YEARLY;INTERVAL;COUNT` rule is attached only
when `interval > 0 and count > 1`. -/
def create_pattern_event (title : String) (start_date : Nat) (uid : String)
    (interval count : Nat) : CalEvent :=
  { summary := title
    dtstart := start_date
    dtend := start_date + 1
    uid := uid
    rrule :=
      if 0 < interval ∧ 1 < count then some (.yearlyIntervalCount interval count)
      else none }

/-! ### `main`: region processing, buckets, identifier keys, commits -/

structure FixedSpec where
  title : String
  date : String
  details : Details
deriving DecidableEq

structure EasterSpec where
  title : String
  diff : String
  details : Details
deriving DecidableEq

structure RegionConfig where
  repeatHolidays : List FixedSpec
  easterHolidays : List EasterSpec
deriving DecidableEq

/-- `f"{n:02d}"` for the month/day fields. -/
def pad2 (n : Nat) : String :=
  if n < 10 then "0" ++ toString n else toString n

/-- The deterministic identifier key of `main`'s step B:
`f"rule_{month:02d}{day:02d}_{start_year}_{interval}"`. -/
def uid_key (month day start_year interval : Nat) : String :=
  "rule_" ++ pad2 month ++ pad2 day ++ "_" ++ toString start_year ++ "_" ++
    toString interval

/-- The identifier key exactly as the specification's words claim it:
`f"{month}{day}_{start_year}_{interval}"` (no prefix, no padding). -/
def spec_uid_key (month day start_year interval : Nat) : String :=
  toString month ++ toString day ++ "_" ++ toString start_year ++ "_" ++
    toString interval

/-- `main`'s fixed-holiday loop: parse `MMDD`, reuse or mint the
`master_fixed_uid`, emit a yearly rule bounded at `END_YEAR-12-31`.
`gen` is the entropy stream and `ctr` how much of it was consumed. -/
def processFixed (gen : Nat → Nat) :
    List FixedSpec → Nat → Except String (List CalEvent × List FixedSpec × Nat)
  | [], ctr => .ok ([], [], ctr)
  | h :: tl, ctr =>
    match int_of_string ⟨h.date.data.take 2⟩, int_of_string ⟨(h.date.data.drop 2).take 2⟩ with
    | .ok month, .ok day =>
      let minted := (lookupUid (h.details.persistent_uids.getD []) "master_fixed_uid").isNone
      let pr := get_or_create_persistent_uid h.details "master_fixed_uid" (gen ctr)
      let ctr' := if minted then ctr + 1 else ctr
      let ev : CalEvent :=
        { summary := h.title
          dtstart := toOrdinal START_YEAR month.toNat day.toNat
          dtend := toOrdinal START_YEAR month.toNat day.toNat + 1
          uid := pr.1
          rrule := some (.yearlyUntil (toOrdinal END_YEAR 12 31)) }
      match processFixed gen tl ctr' with
      | .ok (evs, tls, ctrF) => .ok (ev :: evs, { h with details := pr.2 } :: tls, ctrF)
      | .error e => .error e
    | .error e, _ => .error e
    | _, .error e => .error e

/-- Insert a year into its `(month, day)` bucket, preserving Python
dict insertion order (a new key appends at the end). -/
def bucketInsert (bs : List ((Nat × Nat) × List Nat)) (key : Nat × Nat) (y : Nat) :
    List ((Nat × Nat) × List Nat) :=
  match bs with
  | [] => [(key, [y])]
  | (k, ys) :: tl =>
    if k = key then (k, ys ++ [y]) :: tl else (k, ys) :: bucketInsert tl key y

/-- Step A of the movable-holiday loop: for every year of the window,
`easter(year) - timedelta(1) + offset`, bucketed by the resulting
month and day. -/
def buildBuckets (offset : Int) : List ((Nat × Nat) × List Nat) :=
  (List.range (END_YEAR + 1 - START_YEAR)).foldl
    (fun bs i =>
      let year := START_YEAR + i
      let finalOrd := (easterOrdinal year : Int) - 1 + offset
      let md := fromOrdinal finalOrd.toNat
      bucketInsert bs (md.2.1, md.2.2) year)
    []

/-- Step B's inner loop over one bucket's compressed runs: build the
`uid_key`, reuse or mint the identifier, emit one pattern event per
run. -/
def processPats (gen : Nat → Nat) (title : String) (month day : Nat) :
    Details → Nat → List Pattern → List CalEvent × Details × Nat
  | dets, ctr, [] => ([], dets, ctr)
  | dets, ctr, p :: ps =>
    (create_pattern_event title (toOrdinal p.start month day)
        (get_or_create_persistent_uid dets (uid_key month day p.start p.interval) (gen ctr)).1
        p.interval p.count ::
      (processPats gen title month day
        (get_or_create_persistent_uid dets (uid_key month day p.start p.interval) (gen ctr)).2
        (if (lookupUid (dets.persistent_uids.getD [])
              (uid_key month day p.start p.interval)).isNone then ctr + 1 else ctr)
        ps).1,
      (processPats gen title month day
        (get_or_create_persistent_uid dets (uid_key month day p.start p.interval) (gen ctr)).2
        (if (lookupUid (dets.persistent_uids.getD [])
              (uid_key month day p.start p.interval)).isNone then ctr + 1 else ctr)
        ps).2)

/-- Step B's outer loop over the buckets of one movable holiday. -/
def processBuckets (gen : Nat → Nat) (title : String) :
    Details → Nat → List ((Nat × Nat) × List Nat) → List CalEvent × Details × Nat
  | dets, ctr, [] => ([], dets, ctr)
  | dets, ctr, (md, ys) :: tl =>
    ((processPats gen title md.1 md.2 dets ctr (find_yearly_patterns ys)).1 ++
        (processBuckets gen title
          (processPats gen title md.1 md.2 dets ctr (find_yearly_patterns ys)).2.1
          (processPats gen title md.1 md.2 dets ctr (find_yearly_patterns ys)).2.2 tl).1,
      (processBuckets gen title
        (processPats gen title md.1 md.2 dets ctr (find_yearly_patterns ys)).2.1
        (processPats gen title md.1 md.2 dets ctr (find_yearly_patterns ys)).2.2 tl).2)

/-- The movable-holiday loop: `parse_iso_duration(details['diff'])`
first — its uncaught `ValueError` aborts the whole run — then steps A
and B for the holiday. -/
def processEasterList (gen : Nat → Nat) :
    List EasterSpec → Nat → Except String (List CalEvent × List EasterSpec × Nat)
  | [], ctr => .ok ([], [], ctr)
  | h :: tl, ctr =>
    match parse_iso_duration h.diff with
    | .error e => .error e
    | .ok offset =>
      match processEasterList gen tl
          (processBuckets gen h.title h.details ctr (buildBuckets offset)).2.2 with
      | .ok (evs2, tls, ctrF) =>
        .ok ((processBuckets gen h.title h.details ctr (buildBuckets offset)).1 ++ evs2,
          { h with details :=
              (processBuckets gen h.title h.details ctr (buildBuckets offset)).2.1 } :: tls,
          ctrF)
      | .error e => .error e

/-- One region of `main`'s loop: fixed holidays, then movable ones. -/
def processRegion (gen : Nat → Nat) (cfg : RegionConfig) (ctr : Nat) :
    Except String (List CalEvent × RegionConfig × Nat) :=
  match processFixed gen cfg.repeatHolidays ctr with
  | .error e => .error e
  | .ok (evs1, fixed2, ctr1) =>
    match processEasterList gen cfg.easterHolidays ctr1 with
    | .error e => .error e
    | .ok (evs2, easter2, ctr2) =>
      .ok (evs1 ++ evs2, { repeatHolidays := fixed2, easterHolidays := easter2 }, ctr2)

/-- `main`'s region loop.  A region's calendar file is written
(committed) at the end of its own iteration, so the first component
collects the committed calendars in order; an uncaught error stops the
loop, and the rewritten `calendar.json` (second component) is saved
only when every region succeeded. -/
def runMain (gen : Nat → Nat) :
    List (String × RegionConfig) → Nat →
      List (String × List CalEvent) × Except String (List (String × RegionConfig))
  | [], _ => ([], .ok [])
  | (name, cfg) :: tl, ctr =>
    match processRegion gen cfg ctr with
    | .error e => ([], .error e)
    | .ok (evs, cfg2, ctr2) =>
      ((name, evs) :: (runMain gen tl ctr2).1,
        match (runMain gen tl ctr2).2 with
        | .ok cfgs => .ok ((name, cfg2) :: cfgs)
        | .error e => .error e)


def demoFixed : FixedSpec := ⟨"New Year", "0101", ⟨none, []⟩⟩

def demoBadEaster : EasterSpec := ⟨"Broken", "PxD", ⟨none, []⟩⟩

def demoRegions : List (String × RegionConfig) :=
  [("A", ⟨[demoFixed], []⟩), ("B", ⟨[], [demoBadEaster]⟩)]


@[simp] theorem length_expandPat (p : Pattern) : (expandPat p).length = p.count := by
  simp [expandPat]

theorem expandPat_cons (s d k : Nat) :
    expandPat ⟨s, d, k + 1⟩ = s :: expandPat ⟨s + d, d, k⟩ := by
  simp only [expandPat, List.range_succ_eq_map, List.map_cons, List.map_map]
  refine congrArg₂ (· :: ·) (by simp) ?_
  refine List.map_congr_left fun i _ => ?_
  simp [Function.comp, Nat.succ_mul]; omega

theorem expandPat_sorted {d : Nat} (hd : 0 < d) (s k : Nat) :
    (expandPat ⟨s, d, k⟩).Sorted (· < ·) := by
  have : expandPat ⟨s, d, k⟩ = (List.range k).map (fun i => s + i * d) := rfl
  rw [this]
  refine List.Pairwise.map _ (fun i j (hij : i < j) => ?_) (List.pairwise_lt_range k)
  have : i * d < j * d := (Nat.mul_lt_mul_right hd).mpr hij
  omega

theorem extendRun_eq_expand (years : List Nat) (d : Nat) :
    ∀ fuel cur, ∃ n, extendRun years d cur fuel = expandPat ⟨cur + d, d, n⟩ := by
  intro fuel
  induction fuel with
  | zero => exact fun cur => ⟨0, by simp [extendRun, expandPat]⟩
  | succ fuel ih =>
    intro cur
    by_cases h : (cur + d) ∈ years
    · obtain ⟨n, hn⟩ := ih (cur + d)
      exact ⟨n + 1, by simp [extendRun, h, hn, expandPat_cons]⟩
    · exact ⟨0, by simp [extendRun, h, expandPat]⟩

theorem extendRun_subset (years : List Nat) (d : Nat) :
    ∀ fuel cur x, x ∈ extendRun years d cur fuel → x ∈ years := by
  intro fuel
  induction fuel with
  | zero => simp [extendRun]
  | succ fuel ih =>
    intro cur x hx
    by_cases h : (cur + d) ∈ years
    · simp only [extendRun, if_pos h, List.mem_cons] at hx
      rcases hx with rfl | hx
      · exact h
      · exact ih _ _ hx
    · simp [extendRun, h] at hx

theorem candidate_length (years : List Nat) (s t : Nat) :
    2 ≤ (candidate years s t).length := by
  simp [candidate]

theorem candidate_eq_expand (years : List Nat) {s t : Nat} (hst : s < t) :
    ∃ n, candidate years s t = expandPat ⟨s, t - s, n + 2⟩ ∧
      (candidate years s t).length = n + 2 := by
  obtain ⟨n, hn⟩ := extendRun_eq_expand years (t - s) years.length t
  have hs : s + (t - s) = t := by omega
  refine ⟨n, ?_, ?_⟩
  · have h1 : expandPat ⟨s, t - s, n + 2⟩ = s :: expandPat ⟨s + (t - s), t - s, n + 1⟩ :=
      expandPat_cons ..
    have h2 : expandPat ⟨t, t - s, n + 1⟩ = t :: expandPat ⟨t + (t - s), t - s, n⟩ :=
      expandPat_cons ..
    have h3 : candidate years s t = s :: t :: expandPat ⟨t + (t - s), t - s, n⟩ := by
      rw [candidate, hn]
    rw [h3, h1, hs, h2]
  · simp [candidate, hn]

theorem candidate_subset (years : List Nat) {s t : Nat} (hs : s ∈ years) (ht : t ∈ years) :
    ∀ x ∈ candidate years s t, x ∈ years := by
  intro x hx
  simp only [candidate, List.mem_cons] at hx
  rcases hx with rfl | rfl | hx
  · exact hs
  · exact ht
  · exact extendRun_subset years (t - s) years.length t x hx

theorem candidate_getD_zero (years : List Nat) (s t : Nat) :
    (candidate years s t).getD 0 0 = s := rfl

theorem candidate_getD_one (years : List Nat) (s t : Nat) :
    (candidate years s t).getD 1 0 = t := rfl

theorem foldl_bstep_head (years : List Nat) (s : Nat) :
    ∀ (cands : List Nat) (acc : List Nat), acc.head? = some s →
      (cands.foldl (bstep years s) acc).head? = some s := by
  intro cands
  induction cands with
  | nil => exact fun acc h => h
  | cons t ts ih =>
    intro acc h
    refine ih _ ?_
    unfold bstep
    split
    · rfl
    · exact h

theorem bestSeq_head (years : List Nat) (s : Nat) (cands : List Nat) :
    (bestSeq years s cands).head? = some s :=
  foldl_bstep_head years s cands [s] rfl

/-- The candidate search keeps the first longest candidate: the result is
either the initial accumulator (when no candidate beats it) or a
candidate `candidate years s t` that is at least as long as every
candidate and strictly longer than every candidate for a smaller `t`. -/
theorem foldl_bstep_spec (years : List Nat) (s : Nat) :
    ∀ (cands : List Nat) (acc : List Nat), cands.Sorted (· < ·) →
      (cands.foldl (bstep years s) acc = acc ∧
        ∀ t ∈ cands, (candidate years s t).length ≤ acc.length) ∨
      (∃ t ∈ cands, cands.foldl (bstep years s) acc = candidate years s t ∧
        acc.length < (candidate years s t).length ∧
        (∀ u ∈ cands, (candidate years s u).length ≤ (candidate years s t).length) ∧
        (∀ u ∈ cands, u < t → (candidate years s u).length < (candidate years s t).length)) := by
  intro cands
  induction cands with
  | nil => exact fun acc _ => Or.inl ⟨rfl, by simp⟩
  | cons t ts ih =>
    intro acc hsort
    have hts : ts.Sorted (· < ·) := hsort.of_cons
    have htlt : ∀ u ∈ ts, t < u := (List.sorted_cons.mp hsort).1
    simp only [List.foldl_cons]
    by_cases hrep : acc.length < (candidate years s t).length
    · have hstep : bstep years s acc t = candidate years s t := by
        unfold bstep; rw [if_pos hrep]
      rw [hstep]
      rcases ih (candidate years s t) hts with ⟨heq, hle⟩ | ⟨u, hu, heq, hlt, hle, hstrict⟩
      · refine Or.inr ⟨t, List.mem_cons_self .., heq, hrep, ?_, ?_⟩
        · intro u hu
          rcases List.mem_cons.mp hu with rfl | hu
          · exact le_rfl
          · exact hle u hu
        · intro u hu hut
          rcases List.mem_cons.mp hu with rfl | hu
          · omega
          · exact absurd (htlt u hu) (by omega)
      · refine Or.inr ⟨u, List.mem_cons_of_mem _ hu, heq, by omega, ?_, ?_⟩
        · intro v hv
          rcases List.mem_cons.mp hv with rfl | hv
          · omega
          · exact hle v hv
        · intro v hv hvu
          rcases List.mem_cons.mp hv with rfl | hv
          · omega
          · exact hstrict v hv hvu
    · have hstep : bstep years s acc t = acc := by
        unfold bstep; rw [if_neg hrep]
      rw [hstep]
      rcases ih acc hts with ⟨heq, hle⟩ | ⟨u, hu, heq, hlt, hle, hstrict⟩
      · refine Or.inl ⟨heq, ?_⟩
        intro u hu
        rcases List.mem_cons.mp hu with rfl | hu
        · omega
        · exact hle u hu
      · refine Or.inr ⟨u, List.mem_cons_of_mem _ hu, heq, hlt, ?_, ?_⟩
        · intro v hv
          rcases List.mem_cons.mp hv with rfl | hv
          · omega
          · exact hle v hv
        · intro v hv hvu
          rcases List.mem_cons.mp hv with rfl | hv
          · omega
          · exact hstrict v hv hvu

/-- On a pool of at least two years, the best sequence is a candidate of
maximal length, and of smallest second element among the longest ones. -/
theorem bestSeq_spec (years : List Nat) (s t0 : Nat) (rest : List Nat)
    (hsort : (t0 :: rest).Sorted (· < ·)) :
    ∃ t ∈ t0 :: rest, bestSeq years s (t0 :: rest) = candidate years s t ∧
      (∀ u ∈ t0 :: rest, (candidate years s u).length ≤ (candidate years s t).length) ∧
      (∀ u ∈ t0 :: rest, u < t →
        (candidate years s u).length < (candidate years s t).length) := by
  rcases foldl_bstep_spec years s (t0 :: rest) [s] hsort with ⟨_, hle⟩ | ⟨t, ht, heq, _, hle, hstrict⟩
  · have h1 := hle t0 (List.mem_cons_self ..)
    have h2 := candidate_length years s t0
    simp at h1
    omega
  · exact ⟨t, ht, heq, hle, hstrict⟩

theorem removeSeq_cons_head (x : Nat) (tl ys : List Nat) :
    removeSeq (x :: ys) (x :: tl) = removeSeq ys tl := by
  show removeSeq ((x :: ys).erase x) tl = removeSeq ys tl
  rw [List.erase_cons_head]

theorem removeSeq_sublist : ∀ (seq years : List Nat), List.Sublist (removeSeq years seq) years := by
  intro seq
  induction seq with
  | nil => intro years; exact List.Sublist.refl years
  | cons b bs ih =>
    intro years
    have h : removeSeq years (b :: bs) = removeSeq (years.erase b) bs := rfl
    rw [h]
    exact (ih (years.erase b)).trans (List.erase_sublist b years)

/-- Removing a duplicate-free subcollection splits the pool exactly: the
pool is a permutation of the removed years followed by the rest. -/
theorem removeSeq_perm : ∀ (seq years : List Nat), seq.Nodup → (∀ x ∈ seq, x ∈ years) →
    List.Perm years (seq ++ removeSeq years seq) := by
  intro seq
  induction seq with
  | nil =>
    intro years _ _
    exact List.Perm.refl years
  | cons b bs ih =>
    intro years hnd hsub
    have hb : b ∈ years := hsub b (List.mem_cons_self ..)
    have hnotin : b ∉ bs := (List.nodup_cons.mp hnd).1
    have hbs : bs.Nodup := (List.nodup_cons.mp hnd).2
    have hsub' : ∀ x ∈ bs, x ∈ years.erase b := by
      intro x hx
      have hxb : x ≠ b := fun h => hnotin (h ▸ hx)
      exact (List.mem_erase_of_ne hxb).mpr (hsub x (List.mem_cons_of_mem _ hx))
    have h1 : List.Perm years (b :: years.erase b) := List.perm_cons_erase hb
    have h2 := ih (years.erase b) hbs hsub'
    have h : removeSeq years (b :: bs) = removeSeq (years.erase b) bs := rfl
    rw [h]
    exact h1.trans (h2.cons b)

theorem stepIter_fst_start : ∀ (l : List Nat), l ≠ [] → ((stepIter l).1).start ∈ l := by
  intro l h
  match l with
  | [] => exact absurd rfl h
  | [s] => simp [stepIter]
  | s :: t0 :: rest =>
    simp only [stepIter]
    split
    · exact List.mem_cons_self ..
    · exact List.mem_cons_self ..

theorem stepIter_snd_sublist : ∀ (l : List Nat), List.Sublist ((stepIter l).2) l := by
  intro l
  match l with
  | [] => simp [stepIter]
  | [s] => simp [stepIter]
  | s :: t0 :: rest =>
    simp only [stepIter]
    split
    · exact removeSeq_sublist _ _
    · exact (List.sublist_cons_self ..)

/-- Every iteration of the compression loop strictly shrinks the pool. -/
theorem stepIter_length_lt : ∀ (l : List Nat), l ≠ [] → ((stepIter l).2).length < l.length := by
  intro l h
  match l with
  | [] => exact absurd rfl h
  | [s] => simp [stepIter]
  | s :: t0 :: rest =>
    simp only [stepIter]
    split
    · rcases hb : bestSeq (s :: t0 :: rest) s (t0 :: rest) with _ | ⟨b, bs⟩
      · have hh := bestSeq_head (s :: t0 :: rest) s (t0 :: rest)
        rw [hb] at hh; simp at hh
      · have hh := bestSeq_head (s :: t0 :: rest) s (t0 :: rest)
        rw [hb] at hh
        simp only [List.head?_cons, Option.some.injEq] at hh
        show (removeSeq (s :: t0 :: rest) (b :: bs)).length < (s :: t0 :: rest).length
        rw [hh, removeSeq_cons_head]
        have hle := (removeSeq_sublist bs (t0 :: rest)).length_le
        simp only [List.length_cons] at hle ⊢
        omega
    · simp

theorem findLoop_nil : ∀ fuel, findLoop fuel [] = [] := by
  intro fuel; cases fuel <;> rfl

theorem findLoop_start_mem : ∀ (fuel : Nat) (l : List Nat) (p : Pattern),
    p ∈ findLoop fuel l → p.start ∈ l := by
  intro fuel
  induction fuel with
  | zero => simp [findLoop]
  | succ fuel ih =>
    intro l p hp
    cases l with
    | nil => simp [findLoop] at hp
    | cons y ys =>
      simp only [findLoop, List.mem_cons] at hp
      rcases hp with rfl | hp
      · exact stepIter_fst_start (y :: ys) (by simp)
      · exact (stepIter_snd_sublist (y :: ys)).subset (ih _ _ hp)

/-- Main loop invariant: on a sorted duplicate-free pool (and enough
fuel), the emitted runs expand to a permutation of the pool, every run
has the singleton or proper-progression shape, and the start years are
strictly increasing. -/
theorem findLoop_spec : ∀ (fuel : Nat) (l : List Nat), l.length ≤ fuel → l.Sorted (· < ·) →
    List.Perm ((findLoop fuel l).flatMap expandPat) l ∧
    (∀ p ∈ findLoop fuel l, (p.interval = 0 ∧ p.count = 1) ∨ (0 < p.interval ∧ 2 ≤ p.count)) ∧
    ((findLoop fuel l).map Pattern.start).Sorted (· < ·) := by
  intro fuel
  induction fuel with
  | zero =>
    intro l hl _
    have : l = [] := List.length_eq_zero.mp (Nat.le_zero.mp hl)
    subst this
    simp [findLoop]
  | succ fuel ih =>
    intro l hl hsort
    rcases l with _ | ⟨s, _ | ⟨t0, rest⟩⟩
    · simp [findLoop]
    · have h1 : findLoop (fuel + 1) [s] = [⟨s, 0, 1⟩] := by
        simp [findLoop, stepIter, findLoop_nil]
      rw [h1]
      refine ⟨?_, ?_, ?_⟩
      · simp [expandPat]
      · simp
      · simp
    · -- pool with at least two years: the pattern branch fires
      have hsort' : (t0 :: rest).Sorted (· < ·) := hsort.of_cons
      have hslt : ∀ b ∈ t0 :: rest, s < b := (List.sorted_cons.mp hsort).1
      obtain ⟨t, ht, hbest, hle, hstrict⟩ := bestSeq_spec (s :: t0 :: rest) s t0 rest hsort'
      have hst : s < t := hslt t ht
      obtain ⟨n, hcand, hclen⟩ := candidate_eq_expand (s :: t0 :: rest) hst
      have hcond : 1 < (bestSeq (s :: t0 :: rest) s (t0 :: rest)).length := by
        rw [hbest, hclen]; omega
      have hstep : stepIter (s :: t0 :: rest) =
          (⟨s, t - s, n + 2⟩,
            removeSeq (s :: t0 :: rest) (candidate (s :: t0 :: rest) s t)) := by
        simp only [stepIter]
        rw [if_pos hcond, hbest, candidate_getD_one, candidate_getD_zero, hclen]
      have hfl : findLoop (fuel + 1) (s :: t0 :: rest) =
          ⟨s, t - s, n + 2⟩ ::
            findLoop fuel (removeSeq (s :: t0 :: rest) (candidate (s :: t0 :: rest) s t)) := by
        simp only [findLoop]
        rw [hstep]
      set pool' := removeSeq (s :: t0 :: rest) (candidate (s :: t0 :: rest) s t) with hpool
      have hsub : List.Sublist pool' (s :: t0 :: rest) := removeSeq_sublist _ _
      have hlen1 : pool'.length < (s :: t0 :: rest).length := by
        have := stepIter_length_lt (s :: t0 :: rest) (by simp)
        rw [hstep] at this
        exact this
      have hlen2 : pool'.length ≤ fuel := by
        simp only [List.length_cons] at hl hlen1 ⊢
        omega
      have hsortp : pool'.Sorted (· < ·) := hsort.sublist hsub
      obtain ⟨ihperm, ihshape, ihsorted⟩ := ih pool' hlen2 hsortp
      -- the removed years are exactly the candidate sequence
      have hcnodup : (candidate (s :: t0 :: rest) s t).Nodup := by
        rw [hcand]
        exact (expandPat_sorted (by omega) s (n + 2)).imp (fun h => Nat.ne_of_lt h)
      have hcsub : ∀ x ∈ candidate (s :: t0 :: rest) s t, x ∈ s :: t0 :: rest :=
        candidate_subset _ (List.mem_cons_self ..) (List.mem_cons_of_mem _ ht)
      have hperml : List.Perm (s :: t0 :: rest)
          (candidate (s :: t0 :: rest) s t ++ pool') :=
        removeSeq_perm _ _ hcnodup hcsub
      -- the tail pool sits strictly above s
      have hpool2 : List.Sublist pool' (t0 :: rest) := by
        have h4 : pool' = removeSeq (t0 :: rest)
            (t :: extendRun (s :: t0 :: rest) (t - s) t (s :: t0 :: rest).length) :=
          removeSeq_cons_head s _ _
        rw [h4]
        exact removeSeq_sublist _ _
      refine ⟨?_, ?_, ?_⟩
      · rw [hfl]
        have hbind : (expandPat ⟨s, t - s, n + 2⟩) ++ (findLoop fuel pool').flatMap expandPat =
            (⟨s, t - s, n + 2⟩ :: findLoop fuel pool').flatMap expandPat := rfl
        rw [← hbind, ← hcand]
        exact ((ihperm.append_left _).trans hperml.symm)
      · rw [hfl]
        intro p hp
        rcases List.mem_cons.mp hp with rfl | hp
        · exact Or.inr ⟨by show 0 < t - s; omega, by show 2 ≤ n + 2; omega⟩
        · exact ihshape p hp
      · rw [hfl]
        simp only [List.map_cons]
        rw [List.sorted_cons]
        refine ⟨?_, ihsorted⟩
        intro b hb
        simp only [List.mem_map] at hb
        obtain ⟨q, hq, rfl⟩ := hb
        exact hslt q.start (hpool2.subset (findLoop_start_mem fuel pool' q hq))

theorem filter_gt_length_lt {years : List Nat} {cur d : Nat} (hd : 0 < d)
    (hmem : (cur + d) ∈ years) :
    (years.filter (fun x => cur + d < x)).length <
      (years.filter (fun x => cur < x)).length := by
  have hsub : List.Sublist (years.filter (fun x => cur + d < x))
      (years.filter (fun x => cur < x)) := by
    refine List.monotone_filter_right years ?_
    intro a ha
    simp only [decide_eq_true_eq] at ha ⊢
    omega
  rcases hsub.length_le.lt_or_eq with h | h
  · exact h
  · exfalso
    have heq := hsub.eq_of_length h
    have hmem2 : (cur + d) ∈ years.filter (fun x => cur < x) := by
      simp only [List.mem_filter, decide_eq_true_eq]
      exact ⟨hmem, by omega⟩
    rw [← heq] at hmem2
    simp only [List.mem_filter, decide_eq_true_eq] at hmem2
    omega

/-- The fuel `years.length` used for the inner extension loop never cuts
it short: any fuel at least the number of pool members above `cur`
computes the same (complete) extension. -/
theorem extendRun_fuel_sufficient (years : List Nat) {d : Nat} (hd : 0 < d) :
    ∀ fuel₁ fuel₂ cur, (years.filter (fun x => cur < x)).length ≤ fuel₁ →
      (years.filter (fun x => cur < x)).length ≤ fuel₂ →
      extendRun years d cur fuel₁ = extendRun years d cur fuel₂ := by
  intro fuel₁
  induction fuel₁ with
  | zero =>
    intro fuel₂ cur h1 h2
    have hno : (cur + d) ∉ years := by
      intro hmem
      have : (cur + d) ∈ years.filter (fun x => cur < x) := by
        simp only [List.mem_filter, decide_eq_true_eq]
        exact ⟨hmem, by omega⟩
      have := List.length_pos.mpr (List.ne_nil_of_mem this)
      omega
    cases fuel₂ with
    | zero => rfl
    | succ fuel₂ => simp [extendRun, hno]
  | succ fuel₁ ih =>
    intro fuel₂ cur h1 h2
    cases fuel₂ with
    | zero =>
      have hno : (cur + d) ∉ years := by
        intro hmem
        have : (cur + d) ∈ years.filter (fun x => cur < x) := by
          simp only [List.mem_filter, decide_eq_true_eq]
          exact ⟨hmem, by omega⟩
        have := List.length_pos.mpr (List.ne_nil_of_mem this)
        omega
      simp [extendRun, hno]
    | succ fuel₂ =>
      by_cases hmem : (cur + d) ∈ years
      · have hlt := filter_gt_length_lt hd hmem
        simp only [extendRun, if_pos hmem]
        exact congrArg _ (ih fuel₂ (cur + d) (by omega) (by omega))
      · simp [extendRun, hmem]

theorem sorted_pool (years : List Nat) :
    (years.dedup.insertionSort (· ≤ ·)).Sorted (· < ·) := by
  have h1 : (years.dedup.insertionSort (· ≤ ·)).Sorted (· ≤ ·) :=
    List.sorted_insertionSort (· ≤ ·) years.dedup
  have h2 : (years.dedup.insertionSort (· ≤ ·)).Nodup :=
    (List.perm_insertionSort (· ≤ ·) years.dedup).nodup_iff.mpr (List.nodup_dedup years)
  exact h1.lt_of_le h2

end Generate

namespace Generate

/-- C1: `find_yearly_patterns` partitions its input exactly: the
concatenation of the year-sets generated by the emitted runs is a
permutation of the deduplicated input (so their union is exactly the
deduplicated input set), and it has no duplicates (no year is covered by
two runs or twice by one run). -/
theorem find_yearly_patterns_partition (years : List Nat) :
    List.Perm ((find_yearly_patterns years).flatMap expandPat) years.dedup ∧
    ((find_yearly_patterns years).flatMap expandPat).Nodup := by
  obtain ⟨hperm, _, _⟩ :=
    findLoop_spec (years.dedup.insertionSort (· ≤ ·)).length
      (years.dedup.insertionSort (· ≤ ·)) le_rfl (sorted_pool years)
  have hp2 : List.Perm (years.dedup.insertionSort (· ≤ ·)) years.dedup :=
    List.perm_insertionSort (· ≤ ·) years.dedup
  have hmain : List.Perm ((find_yearly_patterns years).flatMap expandPat) years.dedup :=
    hperm.trans hp2
  exact ⟨hmain, hmain.nodup_iff.mpr (List.nodup_dedup years)⟩

/-- C10: every emitted run is a singleton (`interval = 0`, `count = 1`)
or a proper progression (`interval > 0`, `count ≥ 2`), and the start
years of the emitted runs are strictly increasing in emission order. -/
theorem find_yearly_patterns_shape (years : List Nat) :
    (∀ p ∈ find_yearly_patterns years,
      (p.interval = 0 ∧ p.count = 1) ∨ (0 < p.interval ∧ 2 ≤ p.count)) ∧
    ((find_yearly_patterns years).map Pattern.start).Sorted (· < ·) := by
  obtain ⟨_, hshape, hsorted⟩ :=
    findLoop_spec (years.dedup.insertionSort (· ≤ ·)).length
      (years.dedup.insertionSort (· ≤ ·)) le_rfl (sorted_pool years)
  exact ⟨hshape, hsorted⟩

/-- C7: on the year set `{1999, 2010, 2021, 2085}` the compression
returns exactly the runs `{start: 1999, interval: 11, count: 3}` and
`{start: 2085, interval: 0, count: 1}`, in that order. -/
theorem find_yearly_patterns_example :
    find_yearly_patterns [1999, 2010, 2021, 2085] =
      [⟨1999, 11, 3⟩, ⟨2085, 0, 1⟩] := by decide

/-- C9: the compression loop terminates on every finite input because
each iteration of its main loop strictly shrinks the pool: the pool
length is a strictly decreasing termination measure. -/
theorem compression_step_shrinks (l : List Nat) (h : l ≠ []) :
    ((stepIter l).2).length < l.length :=
  stepIter_length_lt l h

theorem compression_step_shrinks_witness :
    ([1999, 2010, 2021, 2085] ≠ ([] : List Nat)) ∧
    ((stepIter [1999, 2010, 2021, 2085]).2).length < ([1999, 2010, 2021, 2085] : List Nat).length :=
  ⟨by decide, compression_step_shrinks [1999, 2010, 2021, 2085] (by decide)⟩

/-- C2: on a pool with at least two years the emitted run starts at the
smallest year `s`, and is the longest candidate progression obtained by
choosing a later pool member `t`, taking `d = t - s` and greedily
extending while the next element is in the pool; among candidates of
equal maximal length the one with the smallest `d` is kept. -/
theorem compression_picks_longest (s t0 : Nat) (rest : List Nat)
    (hsort : (s :: t0 :: rest).Sorted (· < ·)) :
    ∃ t ∈ t0 :: rest,
      (stepIter (s :: t0 :: rest)).1 =
        ⟨s, t - s, (candidate (s :: t0 :: rest) s t).length⟩ ∧
      expandPat (stepIter (s :: t0 :: rest)).1 = candidate (s :: t0 :: rest) s t ∧
      (∀ u ∈ t0 :: rest,
        (candidate (s :: t0 :: rest) s u).length ≤ (candidate (s :: t0 :: rest) s t).length) ∧
      (∀ u ∈ t0 :: rest,
        (candidate (s :: t0 :: rest) s u).length = (candidate (s :: t0 :: rest) s t).length →
          t - s ≤ u - s) := by
  have hslt : ∀ b ∈ t0 :: rest, s < b := (List.sorted_cons.mp hsort).1
  obtain ⟨t, ht, hbest, hle, hstrict⟩ :=
    bestSeq_spec (s :: t0 :: rest) s t0 rest hsort.of_cons
  have hst : s < t := hslt t ht
  obtain ⟨n, hcand, hclen⟩ := candidate_eq_expand (s :: t0 :: rest) hst
  have hcond : 1 < (bestSeq (s :: t0 :: rest) s (t0 :: rest)).length := by
    rw [hbest, hclen]; omega
  have hstep : stepIter (s :: t0 :: rest) =
      (⟨s, t - s, n + 2⟩,
        removeSeq (s :: t0 :: rest) (candidate (s :: t0 :: rest) s t)) := by
    simp only [stepIter]
    rw [if_pos hcond, hbest, candidate_getD_one, candidate_getD_zero, hclen]
  refine ⟨t, ht, ?_, ?_, hle, ?_⟩
  · rw [hstep, hclen]
  · rw [hstep, ← hcand]
  · intro u hu hlen
    have hsu : s < u := hslt u hu
    by_contra hcon
    have hut : u < t := by omega
    have := hstrict u hu hut
    omega

theorem compression_picks_longest_witness :
    List.Sorted (· < ·) [1999, 2010, 2021, 2085] ∧
    ∃ t ∈ [2010, 2021, 2085],
      (stepIter [1999, 2010, 2021, 2085]).1 =
        ⟨1999, t - 1999, (candidate [1999, 2010, 2021, 2085] 1999 t).length⟩ ∧
      expandPat (stepIter [1999, 2010, 2021, 2085]).1 =
        candidate [1999, 2010, 2021, 2085] 1999 t ∧
      (∀ u ∈ [2010, 2021, 2085],
        (candidate [1999, 2010, 2021, 2085] 1999 u).length ≤
          (candidate [1999, 2010, 2021, 2085] 1999 t).length) ∧
      (∀ u ∈ [2010, 2021, 2085],
        (candidate [1999, 2010, 2021, 2085] 1999 u).length =
          (candidate [1999, 2010, 2021, 2085] 1999 t).length →
          t - 1999 ≤ u - 1999) :=
  ⟨by decide, compression_picks_longest 1999 2010 [2021, 2085] (by decide)⟩

end Generate

namespace Generate

example : easter 2024 = (2024, 3, 31) := by decide

example : easter 2025 = (2025, 4, 20) := by decide

example : parse_iso_duration "P-1D" = .ok (-1) := by rfl

example : parse_iso_duration "P40D" = .ok 40 := by rfl

example : parse_iso_duration "PxD" =
    .error "invalid literal for int() with base 10" := by rfl

example : parse_iso_duration "PDP5D" = .ok 5 := by rfl

example : fromOrdinal (toOrdinal 2024 3 31) = (2024, 3, 31) := by decide

example : fromOrdinal (toOrdinal 2000 2 29) = (2000, 2, 29) := by decide

example : fromOrdinal (toOrdinal 2000 3 1 - 1) = (2000, 2, 29) := by decide

example : fromOrdinal (toOrdinal 1999 12 31 + 1) = (2000, 1, 1) := by decide

example : uid_key 3 5 2000 1 = "rule_0305_2000_1" := by rfl

example : uuidVersion (uuid4 0) = 4 := by decide

example : uuidToString (uuid4 0) = "00000000-0000-4000-8000-000000000000" := by rfl

/-- C8: the Easter date function is a pure function of the year
implementing the Gregorian computus; in particular `easter(2024)` is
2024-03-31 and `easter(2025)` is 2025-04-20. -/
theorem easter_reference_values :
    easter 2024 = (2024, 3, 31) ∧ easter 2025 = (2025, 4, 20) := by decide

/-- C6: `create_pattern_event` on `date(start_year, month, day)` emits
an event with the given title and identifier, starting at that date and
ending exactly one day later; it carries the yearly step-`interval`
count-`count` recurrence rule exactly when `interval > 0` and
`count > 1`, and no rule otherwise (`interval == 0 or count <= 1`). -/
theorem create_pattern_event_spec (title : String) (start_year month day : Nat)
    (uid : String) (interval count : Nat) :
    (create_pattern_event title (toOrdinal start_year month day) uid interval count).summary
        = title ∧
    (create_pattern_event title (toOrdinal start_year month day) uid interval count).dtstart
        = toOrdinal start_year month day ∧
    (create_pattern_event title (toOrdinal start_year month day) uid interval count).dtend
        = toOrdinal start_year month day + 1 ∧
    (create_pattern_event title (toOrdinal start_year month day) uid interval count).uid
        = uid ∧
    ((create_pattern_event title (toOrdinal start_year month day) uid interval count).rrule
        = some (.yearlyIntervalCount interval count) ↔ 0 < interval ∧ 1 < count) ∧
    ((create_pattern_event title (toOrdinal start_year month day) uid interval count).rrule
        = none ↔ (interval = 0 ∨ count ≤ 1)) := by
  refine ⟨rfl, rfl, rfl, rfl, ?_, ?_⟩
  · by_cases h : 0 < interval ∧ 1 < count
    · simp [create_pattern_event, h]
    · simp only [create_pattern_event, if_neg h]
      simp [h]
  · by_cases h : 0 < interval ∧ 1 < count
    · simp only [create_pattern_event, if_pos h]
      constructor
      · intro hc
        simp at hc
      · intro hc
        exfalso
        omega
    · simp only [create_pattern_event, if_neg h]
      constructor
      · intro _
        omega
      · intro _
        trivial

theorem uuid4_version (r : Nat) : uuidVersion (uuid4 r) = 4 := by
  simp only [uuid4, uuidVersion]
  omega

theorem uuid4_variant (r : Nat) : uuidVariant (uuid4 r) = 2 := by
  simp only [uuid4, uuidVariant]
  omega

theorem lookupUid_append_ne (l : List (String × String)) (k key v : String)
    (h : k ≠ key) : lookupUid (l ++ [(key, v)]) k = lookupUid l k := by
  induction l with
  | nil =>
    simp only [List.nil_append, lookupUid]
    rw [if_neg (fun he => h he.symm)]
  | cons kv tl ih =>
    match kv with
    | (k1, v1) =>
      simp only [List.cons_append, lookupUid]
      by_cases h1 : k1 = k
      · rw [if_pos h1, if_pos h1]
      · rw [if_neg h1, if_neg h1]
        exact ih

theorem lookupUid_append_self (l : List (String × String)) (key v : String)
    (h : lookupUid l key = none) : lookupUid (l ++ [(key, v)]) key = some v := by
  induction l with
  | nil =>
    simp [lookupUid]
  | cons kv tl ih =>
    match kv with
    | (k1, v1) =>
      simp only [lookupUid] at h
      simp only [List.cons_append, lookupUid]
      by_cases h1 : k1 = key
      · rw [if_pos h1] at h
        exact absurd h (by simp)
      · rw [if_neg h1] at h
        rw [if_neg h1]
        exact ih h

/-- When the key already exists the call returns the stored value and
the store is untouched. -/
theorem gocu_hit (details : Details) (key v : String) (r : Nat)
    (h : lookupUid (details.persistent_uids.getD []) key = some v) :
    get_or_create_persistent_uid details key r = (v, details) := by
  cases details with
  | mk pu rest =>
    cases pu with
    | none => simp [lookupUid] at h
    | some l =>
      have h2 : lookupUid l key = some v := h
      simp [get_or_create_persistent_uid, h2]

/-- When the key is absent the call mints `str(uuid.uuid4())` and
appends it to the store under the key. -/
theorem gocu_miss (details : Details) (key : String) (r : Nat)
    (h : lookupUid (details.persistent_uids.getD []) key = none) :
    get_or_create_persistent_uid details key r =
      (uuidToString (uuid4 r),
        { details with
            persistent_uids := some (details.persistent_uids.getD [] ++ [(key, uuidToString (uuid4 r))]) }) := by
  unfold get_or_create_persistent_uid
  rw [h]

theorem gocu_lookup_same (details : Details) (key : String) (r : Nat) :
    lookupUid (((get_or_create_persistent_uid details key r).2).persistent_uids.getD []) key
      = some ((get_or_create_persistent_uid details key r).1) := by
  cases hl : lookupUid (details.persistent_uids.getD []) key with
  | some v =>
    rw [gocu_hit details key v r hl]
    exact hl
  | none =>
    rw [gocu_miss details key r hl]
    exact lookupUid_append_self _ key _ hl

theorem gocu_lookup_other (details : Details) (key : String) (r : Nat) (k : String)
    (hne : k ≠ key) :
    lookupUid (((get_or_create_persistent_uid details key r).2).persistent_uids.getD []) k
      = lookupUid (details.persistent_uids.getD []) k := by
  cases hl : lookupUid (details.persistent_uids.getD []) key with
  | some v => rw [gocu_hit details key v r hl]
  | none =>
    rw [gocu_miss details key r hl]
    exact lookupUid_append_ne _ k key _ hne

theorem gocu_rest (details : Details) (key : String) (r : Nat) :
    ((get_or_create_persistent_uid details key r).2).rest = details.rest := by
  cases hl : lookupUid (details.persistent_uids.getD []) key with
  | some v => rw [gocu_hit details key v r hl]
  | none => rw [gocu_miss details key r hl]

/-- C3: `get_or_create_persistent_uid` returns the stored value and
leaves the store unchanged when the key is present; when absent it
stores and returns `str(uuid.uuid4())` — a fresh identifier of UUID
version 4 (version nibble 4, variant bits `10`) — leaving the other
entries untouched; and a second call with the same store and key
returns exactly the first call's result and leaves the store unchanged
(so a re-run with unchanged definitions reproduces the identifiers). -/
theorem get_or_create_persistent_uid_spec (details : Details) (key_name : String) (r : Nat) :
    (∀ v, lookupUid (details.persistent_uids.getD []) key_name = some v →
      get_or_create_persistent_uid details key_name r = (v, details)) ∧
    (lookupUid (details.persistent_uids.getD []) key_name = none →
      (get_or_create_persistent_uid details key_name r).1 = uuidToString (uuid4 r) ∧
      uuidVersion (uuid4 r) = 4 ∧
      uuidVariant (uuid4 r) = 2 ∧
      lookupUid (((get_or_create_persistent_uid details key_name r).2).persistent_uids.getD [])
          key_name = some ((get_or_create_persistent_uid details key_name r).1) ∧
      ((get_or_create_persistent_uid details key_name r).2).rest = details.rest) ∧
    (∀ r2, get_or_create_persistent_uid ((get_or_create_persistent_uid details key_name r).2)
        key_name r2 =
      ((get_or_create_persistent_uid details key_name r).1,
        (get_or_create_persistent_uid details key_name r).2)) := by
  refine ⟨fun v hv => gocu_hit details key_name v r hv, fun h => ?_, fun r2 => ?_⟩
  · exact ⟨by rw [gocu_miss details key_name r h], uuid4_version r, uuid4_variant r,
      gocu_lookup_same details key_name r, gocu_rest details key_name r⟩
  · exact gocu_hit _ key_name _ r2 (gocu_lookup_same details key_name r)

/-- A movable holiday whose offset string does not parse makes the
whole easter-holiday loop fail (the `ValueError` is not caught). -/
theorem processEasterList_error_of_bad (gen : Nat → Nat) :
    ∀ (hs : List EasterSpec) (ctr : Nat),
      (∃ h ∈ hs, ∃ e, parse_iso_duration h.diff = Except.error e) →
      ∃ e, processEasterList gen hs ctr = Except.error e := by
  intro hs
  induction hs with
  | nil =>
    rintro ctr ⟨h, hmem, _⟩
    exact absurd hmem (List.not_mem_nil h)
  | cons h0 tl ih =>
    rintro ctr ⟨h, hmem, e, he⟩
    rcases hp : parse_iso_duration h0.diff with e0 | offset
    · exact ⟨e0, by simp [processEasterList, hp]⟩
    · rcases List.mem_cons.mp hmem with rfl | hmem2
      · rw [hp] at he
        exact absurd he (by simp)
      · obtain ⟨e2, he2⟩ := ih _ ⟨h, hmem2, e, he⟩
        refine ⟨e2, ?_⟩
        simp only [processEasterList, hp]
        rw [he2]

theorem processRegion_error_of_bad (gen : Nat → Nat) (cfg : RegionConfig) (ctr : Nat)
    (hbad : ∃ h ∈ cfg.easterHolidays, ∃ e, parse_iso_duration h.diff = Except.error e) :
    ∃ e, processRegion gen cfg ctr = Except.error e := by
  rcases hf : processFixed gen cfg.repeatHolidays ctr with e | ⟨evs1, fixed2, ctr1⟩
  · exact ⟨e, by simp [processRegion, hf]⟩
  · obtain ⟨e2, he2⟩ := processEasterList_error_of_bad gen cfg.easterHolidays ctr1 hbad
    exact ⟨e2, by simp [processRegion, hf, he2]⟩

/-- C4 amended: when some region's movable holiday has a malformed
offset string, the run aborts with the (uncaught) parse error: the
failing region's calendar and those of later regions are never
committed and the identifier store is not saved, but the calendars of
the regions processed earlier in the same run are already committed. -/
theorem runMain_commits_prefix (gen : Nat → Nat) :
    ∀ (rs : List (String × RegionConfig)) (ctr : Nat) (name : String) (cfg : RegionConfig)
      (tl : List (String × RegionConfig)),
      (∃ h ∈ cfg.easterHolidays, ∃ e, parse_iso_duration h.diff = Except.error e) →
      (runMain gen (rs ++ (name, cfg) :: tl) ctr).1 = (runMain gen rs ctr).1 ∧
      ∃ e, (runMain gen (rs ++ (name, cfg) :: tl) ctr).2 = Except.error e := by
  intro rs
  induction rs with
  | nil =>
    intro ctr name cfg tl hbad
    obtain ⟨e, he⟩ := processRegion_error_of_bad gen cfg ctr hbad
    constructor
    · show (runMain gen ((name, cfg) :: tl) ctr).1 = (runMain gen [] ctr).1
      simp [runMain, he]
    · exact ⟨e, by simp [runMain, he]⟩
  | cons r0 rs' ih =>
    intro ctr name cfg tl hbad
    obtain ⟨n0, c0⟩ := r0
    rcases hp : processRegion gen c0 ctr with e | ⟨evs, cfg2, ctr2⟩
    · constructor
      · show (runMain gen ((n0, c0) :: (rs' ++ (name, cfg) :: tl)) ctr).1 =
          (runMain gen ((n0, c0) :: rs') ctr).1
        simp [runMain, hp]
      · exact ⟨e, by simp [runMain, hp]⟩
    · obtain ⟨ih1, e2, ih2⟩ := ih ctr2 name cfg tl hbad
      constructor
      · show (runMain gen ((n0, c0) :: (rs' ++ (name, cfg) :: tl)) ctr).1 =
          (runMain gen ((n0, c0) :: rs') ctr).1
        simp only [runMain, hp]
        rw [ih1]
      · refine ⟨e2, ?_⟩
        show (runMain gen ((n0, c0) :: (rs' ++ (name, cfg) :: tl)) ctr).2 = Except.error e2
        simp only [runMain, hp]
        rw [ih2]

/-- Keys already in the store survive the pattern loop. -/
theorem processPats_preserves (gen : Nat → Nat) (title : String) (month day : Nat) :
    ∀ (ps : List Pattern) (dets : Details) (ctr : Nat) (k : String),
      (∃ v, lookupUid (dets.persistent_uids.getD []) k = some v) →
      ∃ v, lookupUid
        (((processPats gen title month day dets ctr ps).2.1).persistent_uids.getD []) k
        = some v := by
  intro ps
  induction ps with
  | nil => exact fun dets ctr k h => h
  | cons p ps ih =>
    intro dets ctr k h
    refine ih
      (get_or_create_persistent_uid dets (uid_key month day p.start p.interval) (gen ctr)).2
      (if (lookupUid (dets.persistent_uids.getD [])
            (uid_key month day p.start p.interval)).isNone then ctr + 1 else ctr)
      k ?_
    by_cases hk : k = uid_key month day p.start p.interval
    · rw [hk]
      exact ⟨_, gocu_lookup_same dets _ (gen ctr)⟩
    · rw [gocu_lookup_other dets _ (gen ctr) k hk]
      exact h

/-- Every processed run's `uid_key` is present in the store after the
pattern loop. -/
theorem processPats_key_present (gen : Nat → Nat) (title : String) (month day : Nat) :
    ∀ (ps : List Pattern) (dets : Details) (ctr : Nat), ∀ p ∈ ps, ∃ v,
      lookupUid (((processPats gen title month day dets ctr ps).2.1).persistent_uids.getD [])
        (uid_key month day p.start p.interval) = some v := by
  intro ps
  induction ps with
  | nil => exact fun dets ctr p hp => absurd hp (List.not_mem_nil p)
  | cons q ps ih =>
    intro dets ctr p hp
    rcases List.mem_cons.mp hp with rfl | hp2
    · exact processPats_preserves gen title month day ps
        (get_or_create_persistent_uid dets (uid_key month day p.start p.interval) (gen ctr)).2
        (if (lookupUid (dets.persistent_uids.getD [])
              (uid_key month day p.start p.interval)).isNone then ctr + 1 else ctr)
        (uid_key month day p.start p.interval)
        ⟨_, gocu_lookup_same dets _ (gen ctr)⟩
    · exact ih
        (get_or_create_persistent_uid dets (uid_key month day q.start q.interval) (gen ctr)).2
        (if (lookupUid (dets.persistent_uids.getD [])
              (uid_key month day q.start q.interval)).isNone then ctr + 1 else ctr)
        p hp2

/-- Conversely, every key of the store after the pattern loop is an
original key or the `uid_key` of one of the processed runs. -/
theorem processPats_key_origin (gen : Nat → Nat) (title : String) (month day : Nat) :
    ∀ (ps : List Pattern) (dets : Details) (ctr : Nat) (k : String),
      (∃ v, lookupUid
        (((processPats gen title month day dets ctr ps).2.1).persistent_uids.getD []) k
        = some v) →
      (∃ v, lookupUid (dets.persistent_uids.getD []) k = some v) ∨
      ∃ p ∈ ps, k = uid_key month day p.start p.interval := by
  intro ps
  induction ps with
  | nil => exact fun dets ctr k h => Or.inl h
  | cons q ps ih =>
    intro dets ctr k h
    have h2 : ∃ v, lookupUid
        (((processPats gen title month day
            (get_or_create_persistent_uid dets (uid_key month day q.start q.interval)
              (gen ctr)).2
            (if (lookupUid (dets.persistent_uids.getD [])
                  (uid_key month day q.start q.interval)).isNone then ctr + 1 else ctr)
            ps).2.1).persistent_uids.getD []) k = some v := h
    rcases ih _ _ k h2 with hd1 | ⟨p, hp, rfl⟩
    · by_cases hk : k = uid_key month day q.start q.interval
      · exact Or.inr ⟨q, List.mem_cons_self .., hk⟩
      · rw [gocu_lookup_other dets _ (gen ctr) k hk] at hd1
        exact Or.inl hd1
    · exact Or.inr ⟨p, List.mem_cons_of_mem _ hp, rfl⟩

/-- Every fixed holiday's identifier is kept under the single sentinel
key `"master_fixed_uid"`. -/
theorem processFixed_sentinel (gen : Nat → Nat) :
    ∀ (fs : List FixedSpec) (ctr : Nat) (evs : List CalEvent) (fs2 : List FixedSpec)
      (ctrF : Nat), processFixed gen fs ctr = Except.ok (evs, fs2, ctrF) →
      ∀ f ∈ fs2, ∃ v,
        lookupUid ((f.details).persistent_uids.getD []) "master_fixed_uid" = some v := by
  intro fs
  induction fs with
  | nil =>
    intro ctr evs fs2 ctrF h f hf
    simp only [processFixed, Except.ok.injEq, Prod.mk.injEq] at h
    obtain ⟨-, h2, -⟩ := h
    rw [← h2] at hf
    exact absurd hf (List.not_mem_nil f)
  | cons h0 tl ih =>
    intro ctr evs fs2 ctrF h f hf
    rcases hm : int_of_string ⟨h0.date.data.take 2⟩ with e | month
    · simp [processFixed, hm] at h
    · rcases hd : int_of_string ⟨(h0.date.data.drop 2).take 2⟩ with e | day
      · simp [processFixed, hm, hd] at h
      · simp only [processFixed, hm, hd] at h
        split at h
        · rename_i evs' tls ctrF' hrec
          simp only [Except.ok.injEq, Prod.mk.injEq] at h
          obtain ⟨-, h2, -⟩ := h
          rw [← h2] at hf
          rcases List.mem_cons.mp hf with rfl | hf2
          · exact ⟨_, gocu_lookup_same h0.details "master_fixed_uid" (gen ctr)⟩
          · exact ih _ evs' tls ctrF' hrec f hf2
        · simp at h

/-- C5 counterexample: at month 3, day 5, start year 2000, interval 1,
the key actually used by the store is `"rule_0305_2000_1"` — not the
claimed `f"{month}{day}_{start_year}_{interval}"` (= `"35_2000_1"`),
which is absent from the store after the run processes that pattern. -/
theorem uid_key_counterexample :
    uid_key 3 5 2000 1 ≠ spec_uid_key 3 5 2000 1 ∧
    ((processPats (fun _ => 0) "Feiertag" 3 5 ⟨none, []⟩ 0
        [⟨2000, 1, 2⟩]).2.1).persistent_uids
      = some [(uid_key 3 5 2000 1, uuidToString (uuid4 0))] ∧
    lookupUid (((processPats (fun _ => 0) "Feiertag" 3 5 ⟨none, []⟩ 0
        [⟨2000, 1, 2⟩]).2.1).persistent_uids.getD []) (spec_uid_key 3 5 2000 1) = none :=
  ⟨by decide, rfl, rfl⟩

/-- C5 amended: the key used in the persistent store for a movable rule
`(month, day, start_year, interval)` is exactly
`f"rule_{month:02d}{day:02d}_{start_year}_{interval}"` (`uid_key`):
after the pattern loop every processed run's `uid_key` is present, any
other present key was present before, and fixed holidays use the single
sentinel key `"master_fixed_uid"` — so a key depends only on the rule's
parameters, not on discovery order. -/
theorem uid_key_spec (gen : Nat → Nat) (title : String) (month day : Nat)
    (ps : List Pattern) (dets : Details) (ctr : Nat) :
    (∀ p ∈ ps, ∃ v,
      lookupUid (((processPats gen title month day dets ctr ps).2.1).persistent_uids.getD [])
        (uid_key month day p.start p.interval) = some v) ∧
    (∀ k, (∃ v, lookupUid
        (((processPats gen title month day dets ctr ps).2.1).persistent_uids.getD []) k
        = some v) →
      (∃ v, lookupUid (dets.persistent_uids.getD []) k = some v) ∨
      ∃ p ∈ ps, k = uid_key month day p.start p.interval) ∧
    (∀ (fs : List FixedSpec) (ctr2 : Nat) (evs : List CalEvent) (fs2 : List FixedSpec)
      (ctrF : Nat), processFixed gen fs ctr2 = Except.ok (evs, fs2, ctrF) →
      ∀ f ∈ fs2, ∃ v,
        lookupUid ((f.details).persistent_uids.getD []) "master_fixed_uid" = some v) :=
  ⟨processPats_key_present gen title month day ps dets ctr,
   processPats_key_origin gen title month day ps dets ctr,
   fun fs ctr2 => processFixed_sentinel gen fs ctr2⟩

/-- C4 counterexample: the stripping of every `P`/`D` makes the
malformed offset `"PDP5D"` parse successfully (no error at all), and
for a malformed offset that does fail (region B's `"PxD"`), the
`ValueError` is not caught before output for the run is committed:
region A's calendar is already committed when the run aborts. -/
theorem offset_error_counterexample :
    parse_iso_duration "PDP5D" = Except.ok 5 ∧
    ((runMain (fun _ => 0) demoRegions 0).1).map Prod.fst = ["A"] ∧
    (runMain (fun _ => 0) demoRegions 0).2 =
      Except.error "invalid literal for int() with base 10" :=
  ⟨rfl, rfl, rfl⟩

theorem runMain_commits_prefix_witness :
    (∃ h ∈ (⟨[], [demoBadEaster]⟩ : RegionConfig).easterHolidays,
      ∃ e, parse_iso_duration h.diff = Except.error e) ∧
    ((runMain (fun _ => 0) ([("A", ⟨[demoFixed], []⟩)] ++
          ("B", (⟨[], [demoBadEaster]⟩ : RegionConfig)) :: []) 0).1 =
        (runMain (fun _ => 0) [("A", ⟨[demoFixed], []⟩)] 0).1 ∧
      ∃ e, (runMain (fun _ => 0) ([("A", ⟨[demoFixed], []⟩)] ++
          ("B", (⟨[], [demoBadEaster]⟩ : RegionConfig)) :: []) 0).2 = Except.error e) :=
  ⟨⟨demoBadEaster, List.mem_cons_self ..,
      "invalid literal for int() with base 10", rfl⟩,
    runMain_commits_prefix (fun _ => 0) [("A", ⟨[demoFixed], []⟩)] 0 "B"
      ⟨[], [demoBadEaster]⟩ []
      ⟨demoBadEaster, List.mem_cons_self ..,
        "invalid literal for int() with base 10", rfl⟩⟩

end Generate
